import Mathlib

/-!
Shallow embedding of the wasabi cake MIDI loader (src/midi/cake/mod.rs) and the
in-RAM note block (src/midi/ram/block.rs).  Floating-point seconds are modelled
as rationals; the f64-to-i32 cast is modelled as saturating truncation toward
zero, and the i32-to-u32 cast as reduction modulo 2^32.  Components of the
repository that are not part of the provided sources (the cake block tree, the
tree serializers, the time keeper, the colour table and the file signature) are
modelled from the specification and marked as such in their doc comments.
-/

namespace Wasabi

/-- Truncation of a rational toward zero, the rounding used by a numeric cast
from a floating-point value to an integer. -/
def ratTrunc (q : ℚ) : ℤ := q.num.tdiv (q.den : ℤ)

/-- Conversion of an elapsed-seconds value to a signed 32-bit tick count,
following the saturating semantics of an f64-to-i32 cast. -/
def i32OfF64 (q : ℚ) : ℤ := max (-2147483648) (min 2147483647 (ratTrunc q))

/-- Reinterpretation of an i32 value as a u32, as in an i32-to-u32 cast. -/
def u32OfI32 (x : ℤ) : ℕ := (x.emod 4294967296).toNat

/-- MIDI channel-voice events relevant to the cake loader; every event other
than note-on and note-off is grouped as other, which the key thread ignores. -/
inductive Event where
  | noteOn (channel : Fin 16) (key : Fin 128)
  | noteOff (channel : Fin 16) (key : Fin 128)
  | other
deriving DecidableEq

/-- Tells whether an event is a note-on event. -/
def Event.isOn : Event → Bool
  | .noteOn _ _ => true
  | _ => false

/-- An event tagged with its originating track index, as produced by the merged
batch iterator of the MIDI toolkit. -/
structure TrackEvent where
  track : ℕ
  event : Event
deriving DecidableEq

/-- A timed event batch: a group of events sharing one delta time, in seconds,
from the previous batch (after tempo cancelling and PPQ scaling). -/
structure EventBatch where
  delta : ℚ
  events : List TrackEvent
deriving DecidableEq

/-- A note marker pushed into the per-pitch tree serializers, carrying the
integer tick, the combined channel-track identifier and the display colour. -/
inductive NoteEvent where
  | on (time : ℤ) (channelTrack : ℤ) (color : ℤ)
  | off (time : ℤ) (channelTrack : ℤ) (color : ℤ)
deriving DecidableEq

/-- Extracts the tick of a note-on marker. -/
def NoteEvent.onTime : NoteEvent → Option ℤ
  | .on t _ _ => some t
  | .off _ _ _ => none

/-- Modelled from the spec: the per-pitch growable interval-building structure
(ThreadedTreeSerializers of the cake tree-threader module, absent from the
provided sources).  One list of pushed note markers per MIDI pitch, 128 in
total. -/
structure ThreadedTreeSerializers where
  events : List (List NoteEvent)
deriving DecidableEq

/-- Modelled from the spec: a fresh serializer set with one empty context per
pitch. -/
def ThreadedTreeSerializers.new : ThreadedTreeSerializers :=
  ⟨List.replicate 128 []⟩

/-- Modelled from the spec: pushing a note marker appends it to the context of
the given pitch. -/
def ThreadedTreeSerializers.push_event (t : ThreadedTreeSerializers) (key : ℕ)
    (ev : NoteEvent) : ThreadedTreeSerializers :=
  ⟨t.events.set key ((t.events.getD key []) ++ [ev])⟩

/-- A completed note of the sealed per-pitch block: the half-open tick interval
from start to stop, with its channel-track identifier and colour. -/
structure CakeNote where
  start : ℤ
  stop : ℤ
  channelTrack : ℤ
  color : ℤ
deriving DecidableEq

/-- A note that has started and not yet ended during sealing. -/
structure UnendedNote where
  start : ℤ
  channelTrack : ℤ
  color : ℤ
deriving DecidableEq

/-- Removes the first unended note with the given channel-track identifier,
returning it and the remaining unended notes. -/
def takeFirstMatch (id : ℤ) : List UnendedNote → Option (UnendedNote × List UnendedNote)
  | [] => none
  | u :: rest =>
    if u.channelTrack = id then some (u, rest)
    else
      match takeFirstMatch id rest with
      | some (v, rest2) => some (v, u :: rest2)
      | none => none

/-- Modelled from the spec: sealing one pitch context converts the pushed
note-on and note-off markers into completed notes, pairing each note-off with
the earliest unended note-on of the same channel-track identifier; notes never
turned off close at the final observed tick. -/
def sealEventsGo (finalTime : ℤ) :
    List NoteEvent → List UnendedNote → List CakeNote → List CakeNote
  | [], unended, acc =>
      acc ++ unended.map (fun u => ⟨u.start, finalTime, u.channelTrack, u.color⟩)
  | .on t id c :: rest, unended, acc =>
      sealEventsGo finalTime rest (unended ++ [⟨t, id, c⟩]) acc
  | .off t id _c :: rest, unended, acc =>
      match takeFirstMatch id unended with
      | some (u, unended2) =>
          sealEventsGo finalTime rest unended2 (acc ++ [⟨u.start, t, u.channelTrack, u.color⟩])
      | none => sealEventsGo finalTime rest unended acc

/-- Modelled from the spec: seals one pitch context into its completed notes. -/
def sealEvents (finalTime : ℤ) (evs : List NoteEvent) : List CakeNote :=
  sealEventsGo finalTime evs [] []

/-- Modelled from the spec: sealing all 128 pitch contexts. -/
def ThreadedTreeSerializers.seal (t : ThreadedTreeSerializers) (finalTime : ℤ) :
    List (List CakeNote) :=
  t.events.map (sealEvents finalTime)

/-- The sealed per-pitch block: a tick range and the serialized tree.  The tree
itself is modelled from the spec as the list of completed notes, with its
serialized length being the number of notes. -/
structure CakeBlock where
  start_time : ℕ
  end_time : ℕ
  tree : List CakeNote
deriving DecidableEq

/-- Modelled from the spec: the point query counting the notes of the block
that have started and not yet ended as of the given tick, i.e. whose half-open
interval contains it. -/
def CakeBlock.get_notes_passed_at (b : CakeBlock) (t : ℤ) : ℕ :=
  b.tree.countP (fun n => decide (n.start ≤ t ∧ t < n.stop))

/-- Combined channel and track identifier, channel plus sixteen times track. -/
def channel_track (channel : ℕ) (track : ℕ) : ℤ :=
  (channel : ℤ) + (track : ℤ) * 16

/-- State of the key-thread loop: the per-pitch serializers, the accumulated
time in seconds and the running note count. -/
structure KeyState where
  trees : ThreadedTreeSerializers
  time : ℚ
  note_count : ℕ

/-- Processing of a single tracked event at the given integer tick: a note-on
pushes an on marker and increments the note count, a note-off pushes an off
marker, anything else is ignored. -/
def processEvent (colors : List ℤ) (int_time : ℤ) (st : KeyState) (te : TrackEvent) :
    KeyState :=
  match te.event with
  | .noteOn ch key =>
      let ct := channel_track ch.val te.track
      { st with
        trees := st.trees.push_event key.val (.on int_time ct (colors.getD ct.toNat 0)),
        note_count := st.note_count + 1 }
  | .noteOff ch key =>
      let ct := channel_track ch.val te.track
      { st with
        trees := st.trees.push_event key.val (.off int_time ct (colors.getD ct.toNat 0)) }
  | .other => st

/-- Processing of one batch: the accumulated time advances by the batch delta,
the integer tick is the accumulated seconds times ten thousand truncated, and
every event of the batch is processed at that tick. -/
def processBatch (colors : List ℤ) (st : KeyState) (batch : EventBatch) : KeyState :=
  let time := st.time + batch.delta
  let int_time := i32OfF64 (time * 10000)
  batch.events.foldl (processEvent colors int_time) { st with time := time }

/-- The key-thread state after consuming a list of batches. -/
def runKeyState (colors : List ℤ) (batches : List EventBatch) : KeyState :=
  batches.foldl (processBatch colors) ⟨ThreadedTreeSerializers.new, 0, 0⟩

/-- The key thread of load_from_file: consumes all batches, seals every pitch
context at the final observed tick, and returns the 128 cake blocks, all
spanning from tick zero to the final tick, together with the note count. -/
def runKeyThread (colors : List ℤ) (batches : List EventBatch) : List CakeBlock × ℕ :=
  let st := runKeyState colors batches
  let final_time := i32OfF64 (st.time * 10000)
  let keys := (st.trees.seal final_time).map
    (fun s => { start_time := 0, end_time := u32OfI32 final_time, tree := s })
  (keys, st.note_count)

/-- The load error type, following the error taxonomy of the spec: file open
failure, MIDI parse failure, and settings or colour-assignment failure.  The
numeric payloads stand for the underlying error details. -/
inductive WasabiError where
  | FilesystemError (detail : ℕ)
  | MidiLoadError (detail : ℕ)
  | SettingsError (detail : ℕ)
deriving DecidableEq

/-- The decoded MIDI stream handed to the loader by the external MIDI toolkit:
the number of tracks and the merged, tempo-cancelled, PPQ-scaled batch
sequence with deltas in seconds. -/
structure ParsedMidi where
  track_count : ℕ
  batches : List EventBatch
deriving DecidableEq

/-- The MIDI settings relevant to the loader: the playback start delay and the
configured colour palette. -/
structure MidiSettings where
  start_delay : ℚ
  palette : List ℤ
deriving DecidableEq

/-- Modelled from the spec: the per-(track, channel) colour table computed from
the settings at load time (MIDIColor of the midi module, absent from the
provided sources); fails when the track count exceeds the configured palette. -/
def MIDIColor.new_vec_from_settings (track_count : ℕ) (settings : MidiSettings) :
    Except WasabiError (List ℤ) :=
  if track_count * 16 ≤ settings.palette.length then
    .ok (settings.palette.take (track_count * 16))
  else
    .error (.SettingsError 0)

/-- A file system as a finite map from paths to file contents, both modelled as
byte lists. -/
def FileSystem : Type := List (List ℕ × List ℕ)

/-- Looks a path up in the file system. -/
def fsLookup (fs : FileSystem) (path : List ℕ) : Option (List ℕ) :=
  match fs.find? (fun entry => decide (entry.1 = path)) with
  | some entry => some entry.2
  | none => none

/-- Modelled from the spec: opening the file and computing its unique signature
(open_file_and_signature of the midi module, absent from the provided sources).
The signature uniquely identifies the file, so it is modelled as the file
content itself; a missing file is a filesystem error. -/
def open_file_and_signature (fs : FileSystem) (path : List ℕ) :
    Except WasabiError (List ℕ × List ℕ) :=
  match fsLookup fs path with
  | some bytes => .ok (bytes, bytes)
  | none => .error (.FilesystemError 0)

/-- Modelled from the spec: the process-wide shared clock (TimeKeeper of the
shared timer module, absent from the provided sources), holding the current
playback position; a fresh keeper starts behind by the start delay. -/
structure TimeKeeper where
  time : ℚ
deriving DecidableEq

/-- Modelled from the spec: a fresh time keeper with the given start delay. -/
def TimeKeeper.new (start_delay : ℚ) : TimeKeeper := ⟨-start_delay⟩

/-- Modelled from the spec: the current playback position in seconds. -/
def TimeKeeper.get_time (t : TimeKeeper) : ℚ := t.time

/-- Modelled from the spec: a seek sets the playback position, forward or
backward. -/
def TimeKeeper.seek (_t : TimeKeeper) (pos : ℚ) : TimeKeeper := ⟨pos⟩

/-- The loaded cake MIDI file: the 128 sealed blocks, the timer, the total
length in seconds, the note count, the tick resolution and the file
signature. -/
structure CakeMIDIFile where
  blocks : List CakeBlock
  timer : TimeKeeper
  length : ℚ
  note_count : ℕ
  ticks_per_second : ℕ
  signature : List ℕ
deriving DecidableEq

/-- Loading a cake MIDI file: open the file and compute its signature, parse
the MIDI stream, compute the colour table, then run the pipeline over the
merged batches, accumulating the total length, and return the completed file
with a fresh timer.  The parser of the external MIDI toolkit is passed as a
function. -/
def load_from_file (parse : List ℕ → Except ℕ ParsedMidi) (fs : FileSystem)
    (path : List ℕ) (settings : MidiSettings) : Except WasabiError CakeMIDIFile :=
  match open_file_and_signature fs path with
  | .error e => .error e
  | .ok (file, signature) =>
    match parse file with
    | .error e => .error (.MidiLoadError e)
    | .ok midi =>
      match MIDIColor.new_vec_from_settings midi.track_count settings with
      | .error e => .error e
      | .ok colors =>
        let res := runKeyThread colors midi.batches
        let length := (midi.batches.map EventBatch.delta).sum
        let timer := TimeKeeper.new settings.start_delay
        .ok { blocks := res.1, timer := timer, length := length,
              note_count := res.2, ticks_per_second := 10000,
              signature := signature }

/-- The fallible prefix of load_from_file: file open and signature, MIDI parse,
and colour assignment, in that order, before the concurrent pipeline starts. -/
def load_checks (parse : List ℕ → Except ℕ ParsedMidi) (fs : FileSystem)
    (path : List ℕ) (settings : MidiSettings) :
    Except WasabiError (List ℕ × ParsedMidi × List ℤ) :=
  match open_file_and_signature fs path with
  | .error e => .error e
  | .ok (file, signature) =>
    match parse file with
    | .error e => .error (.MidiLoadError e)
    | .ok midi =>
      match MIDIColor.new_vec_from_settings midi.track_count settings with
      | .error e => .error e
      | .ok colors => .ok (signature, midi, colors)

/-- The infallible pipeline stage of load_from_file, run once all checks have
passed. -/
def buildLoadedFile (signature : List ℕ) (midi : ParsedMidi) (colors : List ℤ)
    (settings : MidiSettings) : CakeMIDIFile :=
  let res := runKeyThread colors midi.batches
  { blocks := res.1, timer := TimeKeeper.new settings.start_delay,
    length := (midi.batches.map EventBatch.delta).sum,
    note_count := res.2, ticks_per_second := 10000, signature := signature }

/-- The sealed per-pitch blocks of a loaded file. -/
def CakeMIDIFile.key_blocks (f : CakeMIDIFile) : List CakeBlock := f.blocks

/-- A backward seek is explicitly allowed by the cake file format. -/
def CakeMIDIFile.allows_seeking_backward (_f : CakeMIDIFile) : Bool := true

/-- The playback statistics record: total notes and notes passed. -/
structure MIDIFileStats where
  total_notes : Option ℕ
  passed_notes : Option ℕ
deriving DecidableEq

/-- The stats query: quantize the current clock time to a tick, then sum the
interval-count query over all pitch blocks; the total is the stored note
count. -/
def CakeMIDIFile.stats (f : CakeMIDIFile) : MIDIFileStats :=
  let time := f.timer.get_time
  let time_int := i32OfF64 (time * (f.ticks_per_second : ℚ))
  let passed_notes := (f.key_blocks.map (fun b => b.get_notes_passed_at time_int)).sum
  { total_notes := some f.note_count, passed_notes := some passed_notes }

/-- The change-detection fingerprint of a loaded file. -/
structure CakeSignature where
  file_signature : List ℕ
  note_count : ℕ
  buffer_sizes : List ℕ
deriving DecidableEq

/-- The fingerprint query: the file signature, the note count and the
serialized size of every block tree. -/
def CakeMIDIFile.cake_signature (f : CakeMIDIFile) : CakeSignature :=
  { file_signature := f.signature, note_count := f.note_count,
    buffer_sizes := f.blocks.map (fun b => b.tree.length) }

/-- A seek on a loaded file, through its mutable timer. -/
def CakeMIDIFile.seek (f : CakeMIDIFile) (pos : ℚ) : CakeMIDIFile :=
  { f with timer := f.timer.seek pos }

/-- A sequence of seeks applied in order. -/
def applySeeks (f : CakeMIDIFile) (ts : List ℚ) : CakeMIDIFile :=
  ts.foldl CakeMIDIFile.seek f

/-- Follows the spec's words: the stats record as a pure function of the sealed
blocks, the note count and the current clock tick alone. -/
def statsOfTick (blocks : List CakeBlock) (note_count : ℕ) (tick : ℤ) : MIDIFileStats :=
  { total_notes := some note_count,
    passed_notes := some ((blocks.map (fun b => b.get_notes_passed_at tick)).sum) }

/-- The number of note-on events of a batch stream. -/
def countNoteOns (batches : List EventBatch) : ℕ :=
  (batches.map (fun b => b.events.countP (fun te => te.event.isOn))).sum

/-- The per-pitch marker list accumulated by the key thread for one pitch. -/
def pitchEvents (colors : List ℤ) (batches : List EventBatch) (p : ℕ) : List NoteEvent :=
  (runKeyState colors batches).trees.events.getD p []

/-- The ticks of the note-on markers observed for one pitch. -/
def onTicksOfPitch (colors : List ℤ) (batches : List EventBatch) (p : ℕ) : List ℤ :=
  (pitchEvents colors batches p).filterMap NoteEvent.onTime

/-- The final observed tick of a parsed file: the total elapsed seconds times
ten thousand, truncated. -/
def finalFileTick (midi : ParsedMidi) : ℤ :=
  i32OfF64 (((midi.batches.map EventBatch.delta).sum) * 10000)

/-- The capacity of each bounded channel between the producer and a consumer. -/
def channelBound : ℕ := 1000

/-- State of the fan-out pipeline of load_from_file, with batches of an
arbitrary type: the batches the producer has not yet sent, the batch already
sent on the key channel but not yet on the audio channel (the producer sends to
the key channel first, then to the audio channel), the two bounded queues, and
the batches each consumer has received so far. -/
structure PipeState (α : Type) where
  pending : List α
  inFlight : Option α
  keyQ : List α
  audioQ : List α
  keyRecv : List α
  audioRecv : List α
deriving DecidableEq

/-- The initial pipeline state for a batch sequence. -/
def initPipe {α : Type} (batches : List α) : PipeState α :=
  { pending := batches, inFlight := none, keyQ := [], audioQ := [],
    keyRecv := [], audioRecv := [] }

/-- One interleaving step of the pipeline: the producer sends the next batch on
the key channel when it has room, then on the audio channel when it has room —
a full channel blocks the producer, which is why both send steps require the
queue length to be below the bound — and each consumer takes the batch at the
front of its queue. -/
inductive PipeStep {α : Type} : PipeState α → PipeState α → Prop where
  | sendKey (s : PipeState α) (b : α) (rest : List α) :
      s.pending = b :: rest → s.inFlight = none → s.keyQ.length < channelBound →
      PipeStep s { s with pending := rest, inFlight := some b, keyQ := s.keyQ ++ [b] }
  | sendAudio (s : PipeState α) (b : α) :
      s.inFlight = some b → s.audioQ.length < channelBound →
      PipeStep s { s with inFlight := none, audioQ := s.audioQ ++ [b] }
  | recvKey (s : PipeState α) (b : α) (rest : List α) :
      s.keyQ = b :: rest →
      PipeStep s { s with keyQ := rest, keyRecv := s.keyRecv ++ [b] }
  | recvAudio (s : PipeState α) (b : α) (rest : List α) :
      s.audioQ = b :: rest →
      PipeStep s { s with audioQ := rest, audioRecv := s.audioRecv ++ [b] }

/-- Reachability of a pipeline state from the initial state of a batch
sequence through any interleaving of steps. -/
def PipeReach {α : Type} (batches : List α) (s : PipeState α) : Prop :=
  Relation.ReflTransGen PipeStep (initPipe batches) s

/-- A basic note of the in-RAM representation: its length in seconds and its
combined track-channel value. -/
structure BasicMIDINote where
  len : ℚ
  track_chan : ℕ
deriving DecidableEq

/-- A block of in-RAM notes sharing one start time, with the running maximum
of their lengths. -/
structure InRamNoteBlock where
  start : ℚ
  max_length : ℚ
  notes : List BasicMIDINote
deriving DecidableEq

/-- Creates a new block from a list of track-channel values, with every length
zero, assuming the lengths will be added in the future. -/
def InRamNoteBlock.new_from_trackchans (time : ℚ) (track_chans : List ℕ) :
    InRamNoteBlock :=
  { start := time, max_length := 0,
    notes := track_chans.map (fun tc => { len := 0, track_chan := tc }) }

/-- Sets the end time of one note: its length becomes the end time minus the
block start, and the running maximum absorbs the new length.  An out-of-range
index leaves the block unchanged (the original panics there). -/
def InRamNoteBlock.set_note_end_time (b : InRamNoteBlock) (note_index : ℕ)
    (end_time : ℚ) : InRamNoteBlock :=
  match b.notes.get? note_index with
  | none => b
  | some note =>
    let newLen := end_time - b.start
    { b with notes := b.notes.set note_index { note with len := newLen },
             max_length := max b.max_length newLen }

/-- A sequence of set_note_end_time calls applied in order. -/
def applyEndTimes (b : InRamNoteBlock) (calls : List (ℕ × ℚ)) : InRamNoteBlock :=
  calls.foldl (fun b c => b.set_note_end_time c.1 c.2) b

/-- A concrete settings value for the worked examples: no start delay and a
palette wide enough for two tracks. -/
def exampleSettings : MidiSettings :=
  { start_delay := 0, palette := List.replicate 32 7 }

/-- The merged batch stream of the synthetic two-track file of the spec: track
zero plays note-on of key sixty at zero seconds and note-off of key sixty one
second later; track one is empty. -/
def exampleMidi : ParsedMidi :=
  { track_count := 2,
    batches := [ { delta := 0, events := [ { track := 0, event := .noteOn 0 60 } ] },
                 { delta := 1, events := [ { track := 0, event := .noteOff 0 60 } ] } ] }

/-- A parser stub that decodes every byte stream into the synthetic two-track
file. -/
def exampleParse (_bytes : List ℕ) : Except ℕ ParsedMidi := .ok exampleMidi

/-- A one-file file system for the worked examples. -/
def exampleFs : FileSystem := [([0], [1, 2, 3])]

/-- The default block used when indexing outside the 128 pitch blocks. -/
def emptyBlock : CakeBlock := { start_time := 0, end_time := 0, tree := [] }

/-- A one-batch stream used to exercise the tick quantization lemma. -/
def tickExampleBatches : List EventBatch := [{ delta := 1, events := [] }]

/-- The file obtained by loading the synthetic two-track example. -/
def exampleLoaded : CakeMIDIFile :=
  (load_from_file exampleParse exampleFs [0] exampleSettings).toOption.getD
    { blocks := [], timer := ⟨0⟩, length := 0, note_count := 0,
      ticks_per_second := 0, signature := [] }

end Wasabi

namespace Wasabi

theorem processEvent_time (colors : List ℤ) (it : ℤ) (st : KeyState) (te : TrackEvent) :
    (processEvent colors it st te).time = st.time := by
  unfold processEvent
  cases te.event <;> rfl

theorem foldl_processEvent_time (colors : List ℤ) (it : ℤ) (evs : List TrackEvent)
    (st : KeyState) :
    (evs.foldl (processEvent colors it) st).time = st.time := by
  induction evs generalizing st with
  | nil => rfl
  | cons e rest ih => rw [List.foldl_cons, ih, processEvent_time]

theorem processBatch_time (colors : List ℤ) (st : KeyState) (b : EventBatch) :
    (processBatch colors st b).time = st.time + b.delta := by
  unfold processBatch
  rw [foldl_processEvent_time]

theorem foldl_processBatch_time (colors : List ℤ) (batches : List EventBatch) (st : KeyState) :
    (batches.foldl (processBatch colors) st).time
      = st.time + (batches.map EventBatch.delta).sum := by
  induction batches generalizing st with
  | nil => simp
  | cons b rest ih =>
      rw [List.foldl_cons, ih, processBatch_time]
      simp [add_assoc]

theorem runKeyState_time (colors : List ℤ) (batches : List EventBatch) :
    (runKeyState colors batches).time = (batches.map EventBatch.delta).sum := by
  unfold runKeyState
  rw [foldl_processBatch_time]
  simp

theorem processEvent_note_count (colors : List ℤ) (it : ℤ) (st : KeyState) (te : TrackEvent) :
    (processEvent colors it st te).note_count
      = st.note_count + (if te.event.isOn then 1 else 0) := by
  unfold processEvent Event.isOn
  cases te.event <;> simp

theorem foldl_processEvent_note_count (colors : List ℤ) (it : ℤ) (evs : List TrackEvent)
    (st : KeyState) :
    (evs.foldl (processEvent colors it) st).note_count
      = st.note_count + evs.countP (fun te => te.event.isOn) := by
  induction evs generalizing st with
  | nil => simp
  | cons e rest ih =>
      rw [List.foldl_cons, ih, processEvent_note_count, List.countP_cons]
      by_cases h : e.event.isOn = true
      · simp [h]
        omega
      · simp [h]

theorem processBatch_note_count (colors : List ℤ) (st : KeyState) (b : EventBatch) :
    (processBatch colors st b).note_count
      = st.note_count + b.events.countP (fun te => te.event.isOn) := by
  unfold processBatch
  rw [foldl_processEvent_note_count]

theorem foldl_processBatch_note_count (colors : List ℤ) (batches : List EventBatch)
    (st : KeyState) :
    (batches.foldl (processBatch colors) st).note_count
      = st.note_count
        + (batches.map (fun b => b.events.countP (fun te => te.event.isOn))).sum := by
  induction batches generalizing st with
  | nil => simp
  | cons b rest ih =>
      rw [List.foldl_cons, ih, processBatch_note_count]
      simp [add_assoc]

theorem runKeyState_note_count (colors : List ℤ) (batches : List EventBatch) :
    (runKeyState colors batches).note_count = countNoteOns batches := by
  unfold runKeyState countNoteOns
  rw [foldl_processBatch_note_count]
  simp

theorem load_from_file_factor (parse : List ℕ → Except ℕ ParsedMidi) (fs : FileSystem)
    (path : List ℕ) (settings : MidiSettings) :
    load_from_file parse fs path settings
      = (load_checks parse fs path settings).map
          (fun x => buildLoadedFile x.1 x.2.1 x.2.2 settings) := by
  unfold load_from_file load_checks buildLoadedFile
  cases hopen : open_file_and_signature fs path with
  | error e => simp [Except.map]
  | ok pr =>
    obtain ⟨file, signature⟩ := pr
    cases hparse : parse file with
    | error e => simp [hparse, Except.map]
    | ok midi =>
      cases hcolors : MIDIColor.new_vec_from_settings midi.track_count settings with
      | error e => simp [hparse, hcolors, Except.map]
      | ok colors => simp [hparse, hcolors, Except.map]

end Wasabi

namespace Wasabi

/-- C1: for every valid MIDI input successfully loaded by load_from_file, the
total notes reported by stats equals the number of note-on events of the source
stream; each note-on increments the count by one and no other event affects
it. -/
theorem total_notes_counts_note_ons
    (parse : List ℕ → Except ℕ ParsedMidi) (fs : FileSystem) (path : List ℕ)
    (settings : MidiSettings) (bytes sig : List ℕ) (midi : ParsedMidi) (f : CakeMIDIFile)
    (hopen : open_file_and_signature fs path = .ok (bytes, sig))
    (hparse : parse bytes = .ok midi)
    (hload : load_from_file parse fs path settings = .ok f) :
    f.stats.total_notes = some (countNoteOns midi.batches) := by
  rw [load_from_file_factor] at hload
  unfold load_checks at hload
  cases hcolors : MIDIColor.new_vec_from_settings midi.track_count settings with
  | error e => simp [hopen, hparse, hcolors, Except.map] at hload
  | ok colors =>
      simp only [hopen, hparse, hcolors, Except.map, Except.ok.injEq] at hload
      subst hload
      simp [CakeMIDIFile.stats, buildLoadedFile, runKeyThread, runKeyState_note_count]

theorem total_notes_counts_note_ons_witness :
    exampleLoaded.stats.total_notes = some (countNoteOns exampleMidi.batches) :=
  total_notes_counts_note_ons exampleParse exampleFs [0] exampleSettings
    [1, 2, 3] [1, 2, 3] exampleMidi exampleLoaded rfl rfl rfl

set_option maxRecDepth 8000 in
/-- C2: the synthetic two-track file whose track zero plays note-on of key
sixty at zero seconds and note-off of key sixty at one second, at ten thousand
ticks per second, loads successfully, and its per-pitch interval-count query
reports one note passed at tick five thousand and zero notes passed at tick
fifteen thousand. -/
theorem example_file_interval_query :
    load_from_file exampleParse exampleFs [0] exampleSettings = .ok exampleLoaded
  ∧ (exampleLoaded.blocks.getD 60 emptyBlock).get_notes_passed_at 5000 = 1
  ∧ (exampleLoaded.blocks.getD 60 emptyBlock).get_notes_passed_at 15000 = 0 := by
  refine ⟨rfl, ?_, ?_⟩
  all_goals
    norm_num [exampleLoaded, load_from_file, open_file_and_signature, fsLookup, exampleParse,
      exampleFs, exampleSettings, exampleMidi, MIDIColor.new_vec_from_settings, runKeyThread,
      runKeyState, processBatch, processEvent, channel_track, i32OfF64, ratTrunc,
      ThreadedTreeSerializers.new, ThreadedTreeSerializers.push_event,
      ThreadedTreeSerializers.seal, sealEvents, sealEventsGo, takeFirstMatch,
      CakeBlock.get_notes_passed_at]
  all_goals decide

end Wasabi

namespace Wasabi

theorem applySeeks_append (f : CakeMIDIFile) (ts : List ℚ) (T : ℚ) :
    applySeeks f (ts ++ [T]) = (applySeeks f ts).seek T := by
  unfold applySeeks
  rw [List.foldl_append]
  rfl

theorem applySeeks_blocks (f : CakeMIDIFile) (ts : List ℚ) :
    (applySeeks f ts).blocks = f.blocks := by
  induction ts generalizing f with
  | nil => rfl
  | cons t rest ih =>
      show (applySeeks (f.seek t) rest).blocks = f.blocks
      rw [ih]
      rfl

theorem applySeeks_note_count (f : CakeMIDIFile) (ts : List ℚ) :
    (applySeeks f ts).note_count = f.note_count := by
  induction ts generalizing f with
  | nil => rfl
  | cons t rest ih =>
      show (applySeeks (f.seek t) rest).note_count = f.note_count
      rw [ih]
      rfl

theorem applySeeks_ticks_per_second (f : CakeMIDIFile) (ts : List ℚ) :
    (applySeeks f ts).ticks_per_second = f.ticks_per_second := by
  induction ts generalizing f with
  | nil => rfl
  | cons t rest ih =>
      show (applySeeks (f.seek t) rest).ticks_per_second = f.ticks_per_second
      rw [ih]
      rfl

theorem seek_stats (g : CakeMIDIFile) (T : ℚ) :
    (g.seek T).stats
      = statsOfTick g.blocks g.note_count (i32OfF64 (T * (g.ticks_per_second : ℚ))) := rfl

/-- C5: seeking backward and forward through any sequence ending at time T
yields exactly the stats of a single direct seek to T; seeks never change the
sealed blocks; backward seeking is advertised as allowed; and stats is a pure
function of the sealed blocks, the note count and the current clock tick. -/
theorem stats_pure_under_seeks (f : CakeMIDIFile) (ts : List ℚ) (T : ℚ) :
    (applySeeks f (ts ++ [T])).stats = (f.seek T).stats
  ∧ (applySeeks f ts).blocks = f.blocks
  ∧ f.allows_seeking_backward = true
  ∧ f.stats = statsOfTick f.blocks f.note_count
      (i32OfF64 (f.timer.get_time * (f.ticks_per_second : ℚ))) := by
  refine ⟨?_, applySeeks_blocks f ts, rfl, rfl⟩
  rw [applySeeks_append, seek_stats, seek_stats, applySeeks_blocks, applySeeks_note_count,
    applySeeks_ticks_per_second]

theorem push_event_events_length (t : ThreadedTreeSerializers) (k : ℕ) (ev : NoteEvent) :
    (t.push_event k ev).events.length = t.events.length := by
  simp [ThreadedTreeSerializers.push_event]

theorem processEvent_trees_length (colors : List ℤ) (it : ℤ) (st : KeyState) (te : TrackEvent) :
    (processEvent colors it st te).trees.events.length = st.trees.events.length := by
  unfold processEvent
  cases te.event <;> simp [push_event_events_length]

theorem foldl_processEvent_trees_length (colors : List ℤ) (it : ℤ) (evs : List TrackEvent)
    (st : KeyState) :
    (evs.foldl (processEvent colors it) st).trees.events.length = st.trees.events.length := by
  induction evs generalizing st with
  | nil => rfl
  | cons e rest ih => rw [List.foldl_cons, ih, processEvent_trees_length]

theorem processBatch_trees_length (colors : List ℤ) (st : KeyState) (b : EventBatch) :
    (processBatch colors st b).trees.events.length = st.trees.events.length := by
  unfold processBatch
  rw [foldl_processEvent_trees_length]

theorem foldl_processBatch_trees_length (colors : List ℤ) (batches : List EventBatch)
    (st : KeyState) :
    (batches.foldl (processBatch colors) st).trees.events.length
      = st.trees.events.length := by
  induction batches generalizing st with
  | nil => rfl
  | cons b rest ih => rw [List.foldl_cons, ih, processBatch_trees_length]

theorem runKeyState_trees_length (colors : List ℤ) (batches : List EventBatch) :
    (runKeyState colors batches).trees.events.length = 128 := by
  unfold runKeyState
  rw [foldl_processBatch_trees_length]
  simp [ThreadedTreeSerializers.new]

theorem runKeyThread_blocks_length (colors : List ℤ) (batches : List EventBatch) :
    (runKeyThread colors batches).1.length = 128 := by
  unfold runKeyThread ThreadedTreeSerializers.seal
  simp [runKeyState_trees_length]

/-- C6: every load failure belongs to one of the three error classes; load
fails with an error exactly when its fallible prefix of checks, run before the
concurrent pipeline starts, fails with that error; and every success carries
all 128 pitch blocks, never a partial file. -/
theorem load_failure_classes (parse : List ℕ → Except ℕ ParsedMidi) (fs : FileSystem)
    (path : List ℕ) (settings : MidiSettings) :
    (∀ e, load_from_file parse fs path settings = .error e
        ↔ load_checks parse fs path settings = .error e)
  ∧ (∀ e, load_from_file parse fs path settings = .error e →
        (∃ d, e = .FilesystemError d) ∨ (∃ d, e = .MidiLoadError d)
          ∨ (∃ d, e = .SettingsError d))
  ∧ (∀ f, load_from_file parse fs path settings = .ok f → f.blocks.length = 128) := by
  refine ⟨?_, ?_, ?_⟩
  · intro e
    rw [load_from_file_factor]
    cases hc : load_checks parse fs path settings with
    | error e2 => simp [Except.map]
    | ok x => simp [Except.map]
  · intro e _
    cases e with
    | FilesystemError d => exact Or.inl ⟨d, rfl⟩
    | MidiLoadError d => exact Or.inr (Or.inl ⟨d, rfl⟩)
    | SettingsError d => exact Or.inr (Or.inr ⟨d, rfl⟩)
  · intro f hload
    rw [load_from_file_factor] at hload
    cases hc : load_checks parse fs path settings with
    | error e2 => rw [hc] at hload; simp [Except.map] at hload
    | ok x =>
        rw [hc] at hload
        simp only [Except.map, Except.ok.injEq] at hload
        subst hload
        simp [buildLoadedFile, runKeyThread_blocks_length]

theorem load_failure_classes_witness :
    load_checks exampleParse [] [0] exampleSettings = .error (.FilesystemError 0)
  ∧ exampleLoaded.blocks.length = 128 :=
  ⟨((load_failure_classes exampleParse [] [0] exampleSettings).1 (.FilesystemError 0)).mp rfl,
   (load_failure_classes exampleParse exampleFs [0] exampleSettings).2.2 exampleLoaded rfl⟩

end Wasabi

namespace Wasabi

theorem i32OfF64_of_range (q : ℚ) (hlo : -2147483648 ≤ ratTrunc q)
    (hhi : ratTrunc q ≤ 2147483647) : i32OfF64 q = ratTrunc q := by
  unfold i32OfF64
  rw [min_eq_right hhi, max_eq_right hlo]

/-- C7: the integer tick the key thread assigns to the events of batch i is
the accumulated elapsed seconds up to and including that batch, multiplied by
the fixed constant of ten thousand ticks per second and truncated to an
integer: processing batch i folds its events at exactly that tick. -/
theorem batch_tick_is_truncated_seconds (colors : List ℤ) (batches : List EventBatch)
    (i : ℕ) (b : EventBatch) (hb : batches[i]? = some b)
    (hlo : -2147483648
      ≤ ratTrunc ((((batches.take (i + 1)).map EventBatch.delta).sum) * 10000))
    (hhi : ratTrunc ((((batches.take (i + 1)).map EventBatch.delta).sum) * 10000)
      ≤ 2147483647) :
    runKeyState colors (batches.take (i + 1))
      = b.events.foldl
          (processEvent colors
            (ratTrunc ((((batches.take (i + 1)).map EventBatch.delta).sum) * 10000)))
          { runKeyState colors (batches.take i) with
            time := (runKeyState colors (batches.take i)).time + b.delta } := by
  have htake : batches.take (i + 1) = batches.take i ++ [b] := by
    rw [List.take_succ, hb]
    rfl
  have hsum : (((batches.take (i + 1)).map EventBatch.delta).sum)
      = (runKeyState colors (batches.take i)).time + b.delta := by
    rw [htake, runKeyState_time]
    simp
  rw [hsum]
  have hrun : runKeyState colors (batches.take (i + 1))
      = processBatch colors (runKeyState colors (batches.take i)) b := by
    unfold runKeyState
    rw [htake, List.foldl_append]
    rfl
  rw [hrun]
  unfold processBatch
  have hcast : i32OfF64 (((runKeyState colors (List.take i batches)).time + b.delta) * 10000)
      = ratTrunc (((runKeyState colors (List.take i batches)).time + b.delta) * 10000) :=
    i32OfF64_of_range _ (hsum ▸ hlo) (hsum ▸ hhi)
  simp only [hcast]

end Wasabi

namespace Wasabi

theorem batch_tick_is_truncated_seconds_witness :
    runKeyState [] (tickExampleBatches.take 1)
      = ({ delta := 1, events := [] } : EventBatch).events.foldl
          (processEvent []
            (ratTrunc ((((tickExampleBatches.take 1).map EventBatch.delta).sum) * 10000)))
          { runKeyState [] (tickExampleBatches.take 0) with
            time := (runKeyState [] (tickExampleBatches.take 0)).time
              + ({ delta := 1, events := [] } : EventBatch).delta } :=
  batch_tick_is_truncated_seconds [] tickExampleBatches 0 { delta := 1, events := [] } rfl
    (by norm_num [ratTrunc, tickExampleBatches])
    (by norm_num [ratTrunc, tickExampleBatches])

theorem getD_mem_of_lt {α : Type} (l : List α) (n : ℕ) (d : α) (h : n < l.length) :
    l.getD n d ∈ l := by
  rw [List.getD_eq_getElem l d h]
  exact List.getElem_mem h

theorem i32OfF64_le_top (q : ℚ) : i32OfF64 q ≤ 2147483647 := by
  unfold i32OfF64
  exact max_le (by norm_num) (min_le_left _ _)

theorem u32OfI32_coe (x : ℤ) (hnn : 0 ≤ x) (hle : x ≤ 2147483647) :
    ((u32OfI32 x : ℤ)) = x := by
  show (((x % 4294967296).toNat : ℤ)) = x
  omega

/-- C9: after every successful load, every pitch block spans the identical
range: start_time is zero and end_time is the final observed tick of the whole
file, irrespective of where that pitch's notes lie. -/
theorem blocks_share_final_range (parse : List ℕ → Except ℕ ParsedMidi) (fs : FileSystem)
    (path : List ℕ) (settings : MidiSettings) (bytes sig : List ℕ) (midi : ParsedMidi)
    (f : CakeMIDIFile) (b : CakeBlock)
    (hopen : open_file_and_signature fs path = .ok (bytes, sig))
    (hparse : parse bytes = .ok midi)
    (hload : load_from_file parse fs path settings = .ok f)
    (hb : b ∈ f.blocks) (hnn : 0 ≤ finalFileTick midi) :
    b.start_time = 0 ∧ (b.end_time : ℤ) = finalFileTick midi := by
  rw [load_from_file_factor] at hload
  unfold load_checks at hload
  cases hcolors : MIDIColor.new_vec_from_settings midi.track_count settings with
  | error e => simp [hopen, hparse, hcolors, Except.map] at hload
  | ok colors =>
      simp only [hopen, hparse, hcolors, Except.map, Except.ok.injEq] at hload
      subst hload
      simp only [buildLoadedFile, runKeyThread, ThreadedTreeSerializers.seal,
        List.map_map] at hb
      obtain ⟨s, hs, rfl⟩ := List.mem_map.mp hb
      refine ⟨rfl, ?_⟩
      show ((u32OfI32 (i32OfF64 ((runKeyState colors midi.batches).time * 10000)) : ℤ))
        = finalFileTick midi
      have hfin : i32OfF64 ((runKeyState colors midi.batches).time * 10000)
          = finalFileTick midi := by
        rw [runKeyState_time]
        rfl
      rw [hfin]
      exact u32OfI32_coe _ hnn (by
        have := i32OfF64_le_top (((midi.batches.map EventBatch.delta).sum) * 10000)
        unfold finalFileTick
        exact this)

end Wasabi

namespace Wasabi

theorem blocks_share_final_range_witness :
    (exampleLoaded.blocks.getD 60 emptyBlock).start_time = 0
  ∧ ((exampleLoaded.blocks.getD 60 emptyBlock).end_time : ℤ) = finalFileTick exampleMidi :=
  blocks_share_final_range exampleParse exampleFs [0] exampleSettings [1, 2, 3] [1, 2, 3]
    exampleMidi exampleLoaded (exampleLoaded.blocks.getD 60 emptyBlock) rfl rfl rfl
    (getD_mem_of_lt _ 60 _ (by rw [show exampleLoaded.blocks.length = 128 from rfl]; norm_num))
    (by norm_num [finalFileTick, exampleMidi, i32OfF64, ratTrunc])

theorem set_note_end_time_max_mono (b : InRamNoteBlock) (i : ℕ) (t : ℚ) :
    b.max_length ≤ (b.set_note_end_time i t).max_length := by
  unfold InRamNoteBlock.set_note_end_time
  cases h : b.notes.get? i with
  | none => simp
  | some note => simp [le_max_left]

theorem set_note_end_time_inv (b : InRamNoteBlock) (i : ℕ) (t : ℚ)
    (hinv : ∀ n ∈ b.notes, n.len ≤ b.max_length) :
    ∀ n ∈ (b.set_note_end_time i t).notes,
      n.len ≤ (b.set_note_end_time i t).max_length := by
  unfold InRamNoteBlock.set_note_end_time
  cases h : b.notes.get? i with
  | none => exact hinv
  | some note =>
      intro n hn
      simp only [] at hn
      rcases List.mem_or_eq_of_mem_set hn with h1 | h2
      · exact le_trans (hinv n h1) (le_max_left _ _)
      · rw [h2]
        exact le_max_right _ _

theorem applyEndTimes_max_mono (b : InRamNoteBlock) (calls : List (ℕ × ℚ)) :
    b.max_length ≤ (applyEndTimes b calls).max_length := by
  induction calls generalizing b with
  | nil => exact le_refl _
  | cons c rest ih =>
      exact le_trans (set_note_end_time_max_mono b c.1 c.2) (ih _)

theorem applyEndTimes_inv (b : InRamNoteBlock) (calls : List (ℕ × ℚ))
    (hinv : ∀ n ∈ b.notes, n.len ≤ b.max_length) :
    ∀ n ∈ (applyEndTimes b calls).notes, n.len ≤ (applyEndTimes b calls).max_length := by
  induction calls generalizing b with
  | nil => exact hinv
  | cons c rest ih => exact ih _ (set_note_end_time_inv b c.1 c.2 hinv)

theorem new_from_trackchans_inv (time : ℚ) (tcs : List ℕ) :
    ∀ n ∈ (InRamNoteBlock.new_from_trackchans time tcs).notes,
      n.len ≤ (InRamNoteBlock.new_from_trackchans time tcs).max_length := by
  intro n hn
  unfold InRamNoteBlock.new_from_trackchans at hn ⊢
  obtain ⟨tc, _, rfl⟩ := List.mem_map.mp hn
  exact le_refl _

theorem applyEndTimes_append (b : InRamNoteBlock) (l1 l2 : List (ℕ × ℚ)) :
    applyEndTimes b (l1 ++ l2) = applyEndTimes (applyEndTimes b l1) l2 := by
  unfold applyEndTimes
  exact List.foldl_append _ _ _ _

/-- C10: for every block built by new_from_trackchans and every sequence of
set_note_end_time calls, max_length stays greater than or equal to the length
of every note and never decreases along the call sequence. -/
theorem max_length_dominates (time : ℚ) (tcs : List ℕ) (calls : List (ℕ × ℚ)) (k : ℕ)
    (n : BasicMIDINote)
    (hn : n ∈ (applyEndTimes (InRamNoteBlock.new_from_trackchans time tcs) calls).notes) :
    n.len ≤ (applyEndTimes (InRamNoteBlock.new_from_trackchans time tcs) calls).max_length
  ∧ (applyEndTimes (InRamNoteBlock.new_from_trackchans time tcs) (calls.take k)).max_length
      ≤ (applyEndTimes (InRamNoteBlock.new_from_trackchans time tcs) calls).max_length := by
  constructor
  · exact applyEndTimes_inv _ _ (new_from_trackchans_inv time tcs) n hn
  · conv_rhs =>
      rw [show calls = calls.take k ++ calls.drop k from (List.take_append_drop k calls).symm]
    rw [applyEndTimes_append]
    exact applyEndTimes_max_mono _ _

theorem max_length_dominates_witness :
    ({ len := 5, track_chan := 1 } : BasicMIDINote).len
        ≤ (applyEndTimes (InRamNoteBlock.new_from_trackchans 0 [1]) [(0, 5)]).max_length
  ∧ (applyEndTimes (InRamNoteBlock.new_from_trackchans 0 [1]) ([(0, 5)].take 0)).max_length
        ≤ (applyEndTimes (InRamNoteBlock.new_from_trackchans 0 [1]) [(0, 5)]).max_length :=
  max_length_dominates 0 [1] [(0, 5)] 0 { len := 5, track_chan := 1 }
    (by norm_num [applyEndTimes, InRamNoteBlock.set_note_end_time,
      InRamNoteBlock.new_from_trackchans])

end Wasabi

namespace Wasabi

theorem load_ok_inversion (parse : List ℕ → Except ℕ ParsedMidi) (fs : FileSystem)
    (path : List ℕ) (settings : MidiSettings) (f : CakeMIDIFile)
    (hload : load_from_file parse fs path settings = .ok f) :
    ∃ bytes midi colors,
      fsLookup fs path = some bytes
      ∧ parse bytes = .ok midi
      ∧ MIDIColor.new_vec_from_settings midi.track_count settings = .ok colors
      ∧ f = buildLoadedFile bytes midi colors settings := by
  unfold load_from_file open_file_and_signature at hload
  cases hfsl : fsLookup fs path with
  | none => simp [hfsl] at hload
  | some bytes =>
      cases hparse : parse bytes with
      | error e => simp [hfsl, hparse] at hload
      | ok midi =>
          cases hcolors : MIDIColor.new_vec_from_settings midi.track_count settings with
          | error e => simp [hfsl, hparse, hcolors] at hload
          | ok colors =>
              refine ⟨bytes, midi, colors, rfl, hparse, hcolors, ?_⟩
              simp only [hfsl, hparse, hcolors, Except.ok.injEq] at hload
              rw [← hload]
              rfl

theorem buildLoadedFile_signature (bytes : List ℕ) (midi : ParsedMidi) (colors : List ℤ)
    (settings : MidiSettings) :
    (buildLoadedFile bytes midi colors settings).signature = bytes := rfl

/-- C3: for two loaded files, equal cake signatures hold exactly when the two
paths hold identical bytes, and equal cake signatures imply equal block
content; hence byte-identical files give equal fingerprints, and any content
change that alters a block necessarily alters the fingerprint. -/
theorem cake_signature_determines_content (parse : List ℕ → Except ℕ ParsedMidi)
    (fs : FileSystem) (path1 path2 : List ℕ) (settings : MidiSettings)
    (f1 f2 : CakeMIDIFile)
    (h1 : load_from_file parse fs path1 settings = .ok f1)
    (h2 : load_from_file parse fs path2 settings = .ok f2) :
    (f1.cake_signature = f2.cake_signature ↔ fsLookup fs path1 = fsLookup fs path2)
  ∧ (f1.cake_signature = f2.cake_signature → f1.blocks = f2.blocks) := by
  obtain ⟨b1, m1, c1, hl1, hp1, hc1, rfl⟩ := load_ok_inversion parse fs path1 settings f1 h1
  obtain ⟨b2, m2, c2, hl2, hp2, hc2, rfl⟩ := load_ok_inversion parse fs path2 settings f2 h2
  have hfwd : (buildLoadedFile b1 m1 c1 settings).cake_signature
      = (buildLoadedFile b2 m2 c2 settings).cake_signature → b1 = b2 := by
    intro hs
    have := congrArg CakeSignature.file_signature hs
    simpa [CakeMIDIFile.cake_signature, buildLoadedFile_signature] using this
  have hsame : b1 = b2 → buildLoadedFile b1 m1 c1 settings = buildLoadedFile b2 m2 c2 settings := by
    intro hb
    subst hb
    rw [hp1] at hp2
    injection hp2 with hm
    subst hm
    rw [hc1] at hc2
    injection hc2 with hc
    subst hc
    rfl
  constructor
  · constructor
    · intro hs
      rw [hl1, hl2, hfwd hs]
    · intro hs
      rw [hl1, hl2] at hs
      injection hs with hb
      rw [hsame hb]
  · intro hs
    rw [hsame (hfwd hs)]

theorem cake_signature_determines_content_witness :
    (exampleLoaded.cake_signature = exampleLoaded.cake_signature
      ↔ fsLookup exampleFs [0] = fsLookup exampleFs [0])
  ∧ (exampleLoaded.cake_signature = exampleLoaded.cake_signature
      → exampleLoaded.blocks = exampleLoaded.blocks) :=
  cake_signature_determines_content exampleParse exampleFs [0] [0] exampleSettings
    exampleLoaded exampleLoaded rfl rfl

end Wasabi

namespace Wasabi

theorem takeFirstMatch_mem (id : ℤ) (l : List UnendedNote) (u : UnendedNote)
    (rest : List UnendedNote) (h : takeFirstMatch id l = some (u, rest)) :
    u ∈ l ∧ ∀ v ∈ rest, v ∈ l := by
  induction l generalizing u rest with
  | nil => simp [takeFirstMatch] at h
  | cons a as ih =>
      unfold takeFirstMatch at h
      by_cases ha : a.channelTrack = id
      · rw [if_pos ha] at h
        simp only [Option.some.injEq, Prod.mk.injEq] at h
        obtain ⟨rfl, rfl⟩ := h
        exact ⟨List.mem_cons_self _ _, fun v hv => List.mem_cons_of_mem _ hv⟩
      · rw [if_neg ha] at h
        cases hrec : takeFirstMatch id as with
        | none => rw [hrec] at h; exact absurd h (by simp)
        | some pr =>
            obtain ⟨v, rest2⟩ := pr
            rw [hrec] at h
            simp only [Option.some.injEq, Prod.mk.injEq] at h
            obtain ⟨rfl, rfl⟩ := h
            obtain ⟨hv, hsub⟩ := ih v rest2 hrec
            refine ⟨List.mem_cons_of_mem _ hv, ?_⟩
            intro w hw
            rcases List.mem_cons.mp hw with h1 | h2
            · rw [h1]; exact List.mem_cons_self _ _
            · exact List.mem_cons_of_mem _ (hsub w h2)

end Wasabi

namespace Wasabi

theorem sealEventsGo_start_mem (ft : ℤ) (evs : List NoteEvent) :
    ∀ (unended : List UnendedNote) (acc : List CakeNote),
      ∀ n ∈ sealEventsGo ft evs unended acc,
        n.start ∈ evs.filterMap NoteEvent.onTime
        ∨ (∃ u ∈ unended, u.start = n.start)
        ∨ (∃ m ∈ acc, m.start = n.start) := by
  induction evs with
  | nil =>
      intro unended acc n hn
      unfold sealEventsGo at hn
      rcases List.mem_append.mp hn with h | h
      · exact Or.inr (Or.inr ⟨n, h, rfl⟩)
      · obtain ⟨u, hu, rfl⟩ := List.mem_map.mp h
        exact Or.inr (Or.inl ⟨u, hu, rfl⟩)
  | cons e rest ih =>
      intro unended acc n hn
      cases e
      next t id c =>
          unfold sealEventsGo at hn
          rcases ih (unended ++ [⟨t, id, c⟩]) acc n hn with h | h | h
          · left
            simp only [List.filterMap_cons, NoteEvent.onTime]
            exact List.mem_cons_of_mem _ h
          · obtain ⟨u, hu, he⟩ := h
            rcases List.mem_append.mp hu with h1 | h2
            · exact Or.inr (Or.inl ⟨u, h1, he⟩)
            · left
              simp only [List.mem_singleton] at h2
              subst h2
              simp only [List.filterMap_cons, NoteEvent.onTime]
              rw [← he]
              exact List.mem_cons_self _ _
          · exact Or.inr (Or.inr h)
      next t id c =>
          unfold sealEventsGo at hn
          cases htm : takeFirstMatch id unended with
          | none =>
              rw [htm] at hn
              rcases ih unended acc n hn with h | h | h
              · left
                simp only [List.filterMap_cons, NoteEvent.onTime]
                exact h
              · exact Or.inr (Or.inl h)
              · exact Or.inr (Or.inr h)
          | some pr =>
              obtain ⟨u, unended2⟩ := pr
              rw [htm] at hn
              rcases ih unended2 (acc ++ [⟨u.start, t, u.channelTrack, u.color⟩]) n hn
                with h | h | h
              · left
                simp only [List.filterMap_cons, NoteEvent.onTime]
                exact h
              · obtain ⟨v, hv, he⟩ := h
                exact Or.inr (Or.inl ⟨v, (takeFirstMatch_mem id unended u unended2 htm).2 v hv, he⟩)
              · obtain ⟨m, hm, he⟩ := h
                rcases List.mem_append.mp hm with h1 | h2
                · exact Or.inr (Or.inr ⟨m, h1, he⟩)
                · simp only [List.mem_singleton] at h2
                  subst h2
                  exact Or.inr (Or.inl ⟨u, (takeFirstMatch_mem id unended u unended2 htm).1, he⟩)

end Wasabi

namespace Wasabi

theorem runKeyThread_block_tree (colors : List ℤ) (batches : List EventBatch) (p : ℕ) :
    ((runKeyThread colors batches).1.getD p emptyBlock).tree
      = sealEvents (i32OfF64 ((runKeyState colors batches).time * 10000))
          (pitchEvents colors batches p) := by
  unfold runKeyThread ThreadedTreeSerializers.seal pitchEvents
  simp only [List.map_map, List.getD_eq_getElem?_getD, List.getElem?_map]
  cases hp : (runKeyState colors batches).trees.events[p]? with
  | none => rfl
  | some evs => rfl

/-- C4: over each sealed pitch block, the interval-count query is monotone
between two ticks as long as no note of that pitch ends at or before the later
tick, and it is zero at every tick strictly before the first note-on observed
for that pitch. -/
theorem passed_notes_monotone_and_zero_before (colors : List ℤ)
    (batches : List EventBatch) (p : ℕ) (T1 T2 T0 : ℤ)
    (hT : T1 ≤ T2)
    (hnoend : ∀ n ∈ ((runKeyThread colors batches).1.getD p emptyBlock).tree, T2 < n.stop)
    (hbefore : ∀ t ∈ onTicksOfPitch colors batches p, T0 < t) :
    ((runKeyThread colors batches).1.getD p emptyBlock).get_notes_passed_at T1
      ≤ ((runKeyThread colors batches).1.getD p emptyBlock).get_notes_passed_at T2
  ∧ ((runKeyThread colors batches).1.getD p emptyBlock).get_notes_passed_at T0 = 0 := by
  constructor
  · unfold CakeBlock.get_notes_passed_at
    apply List.countP_mono_left
    intro n hn hp
    simp only [decide_eq_true_eq] at hp ⊢
    exact ⟨hp.1.trans hT, hnoend n hn⟩
  · unfold CakeBlock.get_notes_passed_at
    rw [List.countP_eq_zero]
    intro n hn
    have hstart : n.start ∈ onTicksOfPitch colors batches p := by
      have htree := runKeyThread_block_tree colors batches p
      rw [htree] at hn
      rcases sealEventsGo_start_mem _ _ [] [] n hn with h | h | h
      · exact h
      · simp at h
      · simp at h
    have hlt := hbefore _ hstart
    simp only [decide_eq_true_eq, not_and]
    intro hle
    exact absurd hle (not_le.mpr hlt)

end Wasabi

namespace Wasabi

set_option maxRecDepth 8000 in
theorem passed_notes_monotone_and_zero_before_witness :
    ((runKeyThread [] exampleMidi.batches).1.getD 60 emptyBlock).get_notes_passed_at 0
      ≤ ((runKeyThread [] exampleMidi.batches).1.getD 60 emptyBlock).get_notes_passed_at 5000
  ∧ ((runKeyThread [] exampleMidi.batches).1.getD 60 emptyBlock).get_notes_passed_at (-1) = 0 :=
  passed_notes_monotone_and_zero_before [] exampleMidi.batches 60 0 5000 (-1)
    (by decide)
    (by
      norm_num [exampleMidi, runKeyThread, runKeyState, processBatch, processEvent,
        channel_track, i32OfF64, ratTrunc, ThreadedTreeSerializers.new,
        ThreadedTreeSerializers.push_event, ThreadedTreeSerializers.seal, sealEvents,
        sealEventsGo, takeFirstMatch]
      try decide)
    (by
      have honticks : onTicksOfPitch [] exampleMidi.batches 60 = [0] := by
        norm_num [exampleMidi, onTicksOfPitch, pitchEvents, runKeyState, processBatch,
          processEvent, channel_track, i32OfF64, ratTrunc, ThreadedTreeSerializers.new,
          ThreadedTreeSerializers.push_event]
        try decide
      rw [honticks]
      decide)

end Wasabi

namespace Wasabi

theorem pipeStep_preserves {α : Type} (batches : List α) (s s2 : PipeState α)
    (hstep : PipeStep s s2)
    (hkb : s.keyQ.length ≤ channelBound) (hab : s.audioQ.length ≤ channelBound)
    (hk : s.keyRecv ++ s.keyQ ++ s.pending = batches)
    (ha : s.audioRecv ++ s.audioQ ++ s.inFlight.toList ++ s.pending = batches) :
    s2.keyQ.length ≤ channelBound ∧ s2.audioQ.length ≤ channelBound
  ∧ s2.keyRecv ++ s2.keyQ ++ s2.pending = batches
  ∧ s2.audioRecv ++ s2.audioQ ++ s2.inFlight.toList ++ s2.pending = batches := by
  cases hstep with
  | sendKey b rest hp hf hlen =>
      refine ⟨?_, hab, ?_, ?_⟩
      · simp only [List.length_append, List.length_singleton]
        omega
      · rw [← hk, hp]
        simp
      · rw [← ha, hp, hf]
        simp
  | sendAudio b hf hlen =>
      refine ⟨hkb, ?_, hk, ?_⟩
      · simp only [List.length_append, List.length_singleton]
        omega
      · rw [← ha, hf]
        simp
  | recvKey b rest hq =>
      refine ⟨?_, hab, ?_, ha⟩
      · rw [hq] at hkb
        simp only [List.length_cons] at hkb
        simp only []
        omega
      · rw [← hk, hq]
        simp
  | recvAudio b rest hq =>
      refine ⟨hkb, ?_, hk, ?_⟩
      · rw [hq] at hab
        simp only [List.length_cons] at hab
        simp only []
        omega
      · rw [← ha, hq]
        simp

end Wasabi

namespace Wasabi

/-- C8: in every reachable interleaving of the fan-out pipeline, each bounded
queue holds at most the channel bound of one thousand batches (the producer
blocks on a full queue instead of buffering), each consumer has received a
prefix of the original batch sequence in original order with the rest still
queued, in flight or pending, and a drained pipeline has delivered the whole
sequence to both consumers exactly once. -/
theorem pipeline_bounded_in_order {α : Type} (batches : List α) (s : PipeState α)
    (h : PipeReach batches s) :
    s.keyQ.length ≤ channelBound ∧ s.audioQ.length ≤ channelBound
  ∧ s.keyRecv ++ s.keyQ ++ s.pending = batches
  ∧ s.audioRecv ++ s.audioQ ++ s.inFlight.toList ++ s.pending = batches
  ∧ (s.pending = [] → s.inFlight = none → s.keyQ = [] → s.audioQ = [] →
      s.keyRecv = batches ∧ s.audioRecv = batches) := by
  have core : s.keyQ.length ≤ channelBound ∧ s.audioQ.length ≤ channelBound
      ∧ s.keyRecv ++ s.keyQ ++ s.pending = batches
      ∧ s.audioRecv ++ s.audioQ ++ s.inFlight.toList ++ s.pending = batches := by
    unfold PipeReach at h
    induction h with
    | refl => simp [initPipe, channelBound]
    | tail hreach hstep ih =>
        obtain ⟨h1, h2, h3, h4⟩ := ih
        exact pipeStep_preserves batches _ _ hstep h1 h2 h3 h4
  obtain ⟨h1, h2, h3, h4⟩ := core
  refine ⟨h1, h2, h3, h4, ?_⟩
  intro hpend hfl hkq haq
  rw [hpend, hkq] at h3
  rw [hpend, hfl, haq] at h4
  simp at h3 h4
  exact ⟨h3, h4⟩

theorem pipeline_bounded_in_order_witness :
    ({ pending := [2], inFlight := some 1, keyQ := [1], audioQ := [],
       keyRecv := [], audioRecv := [] } : PipeState ℕ).keyQ.length ≤ channelBound
  ∧ ({ pending := [2], inFlight := some 1, keyQ := [1], audioQ := [],
       keyRecv := [], audioRecv := [] } : PipeState ℕ).audioQ.length ≤ channelBound
  ∧ ({ pending := [2], inFlight := some 1, keyQ := [1], audioQ := [],
       keyRecv := [], audioRecv := [] } : PipeState ℕ).keyRecv
      ++ ({ pending := [2], inFlight := some 1, keyQ := [1], audioQ := [],
            keyRecv := [], audioRecv := [] } : PipeState ℕ).keyQ
      ++ ({ pending := [2], inFlight := some 1, keyQ := [1], audioQ := [],
            keyRecv := [], audioRecv := [] } : PipeState ℕ).pending = [1, 2]
  ∧ ({ pending := [2], inFlight := some 1, keyQ := [1], audioQ := [],
       keyRecv := [], audioRecv := [] } : PipeState ℕ).audioRecv
      ++ ({ pending := [2], inFlight := some 1, keyQ := [1], audioQ := [],
            keyRecv := [], audioRecv := [] } : PipeState ℕ).audioQ
      ++ ({ pending := [2], inFlight := some 1, keyQ := [1], audioQ := [],
            keyRecv := [], audioRecv := [] } : PipeState ℕ).inFlight.toList
      ++ ({ pending := [2], inFlight := some 1, keyQ := [1], audioQ := [],
            keyRecv := [], audioRecv := [] } : PipeState ℕ).pending = [1, 2]
  ∧ (({ pending := [2], inFlight := some 1, keyQ := [1], audioQ := [],
        keyRecv := [], audioRecv := [] } : PipeState ℕ).pending = [] →
      ({ pending := [2], inFlight := some 1, keyQ := [1], audioQ := [],
         keyRecv := [], audioRecv := [] } : PipeState ℕ).inFlight = none →
      ({ pending := [2], inFlight := some 1, keyQ := [1], audioQ := [],
         keyRecv := [], audioRecv := [] } : PipeState ℕ).keyQ = [] →
      ({ pending := [2], inFlight := some 1, keyQ := [1], audioQ := [],
         keyRecv := [], audioRecv := [] } : PipeState ℕ).audioQ = [] →
      ({ pending := [2], inFlight := some 1, keyQ := [1], audioQ := [],
         keyRecv := [], audioRecv := [] } : PipeState ℕ).keyRecv = [1, 2]
        ∧ ({ pending := [2], inFlight := some 1, keyQ := [1], audioQ := [],
             keyRecv := [], audioRecv := [] } : PipeState ℕ).audioRecv = [1, 2]) :=
  pipeline_bounded_in_order [1, 2]
    { pending := [2], inFlight := some 1, keyQ := [1], audioQ := [],
      keyRecv := [], audioRecv := [] }
    (Relation.ReflTransGen.single
      (PipeStep.sendKey (initPipe [1, 2]) 1 [2] rfl rfl (by norm_num [channelBound, initPipe])))

end Wasabi
